import Mathlib

/-!
Shallow embedding of the `kvs` repository: the `KvStore` of `src/lib.rs`
(an in-memory log of entries with a JSON-serialized on-disk snapshot) and
the byte-level `InnerAppendLog` of `src/append_log.rs`.

Machine integers are modelled as `Nat` with explicit `% 2 ^ 32` where the
source truncates (`entry_encoded.len() as u32`).  File contents are lists
of bytes (`List Nat`); the `HashMap` of the source is modelled as an
association list with one binding per key (iteration order of a `HashMap`
is unspecified, so the list order is a determinization of it).
-/

section HashMapModel

variable {κ : Type} [DecidableEq κ]

/-- Model of `HashMap::get`: the value of the first binding of key `k`. -/
def hmGet : List (κ × Nat) → κ → Option Nat
  | [], _ => none
  | (k0, v) :: rest, k => if k0 = k then some v else hmGet rest k

/-- Model of `HashMap::remove`: drop the binding of key `k`. -/
def hmRemove : List (κ × Nat) → κ → List (κ × Nat)
  | [], _ => []
  | (k0, v) :: rest, k =>
    if k0 = k then hmRemove rest k else (k0, v) :: hmRemove rest k

/-- Model of `HashMap::insert`: a map keeps one binding per key. -/
def hmInsert (m : List (κ × Nat)) (k : κ) (v : Nat) : List (κ × Nat) :=
  (k, v) :: hmRemove m k

/-- The keys of the map are pairwise distinct (always true of a `HashMap`;
an invariant of the association-list model). -/
def NodupKeys (m : List (κ × Nat)) : Prop :=
  (m.map Prod.fst).Nodup

instance (m : List (κ × Nat)) : Decidable (NodupKeys m) := by
  unfold NodupKeys; infer_instance

theorem hmGet_hmRemove (m : List (κ × Nat)) (k k2 : κ) :
    hmGet (hmRemove m k) k2 = if k = k2 then none else hmGet m k2 := by
  induction m with
  | nil => simp [hmGet, hmRemove]
  | cons p rest ih =>
    obtain ⟨k0, v⟩ := p
    by_cases h0 : k0 = k
    · subst h0
      by_cases h2 : k0 = k2
      · subst h2; simp [hmRemove, ih]
      · simp [hmRemove, hmGet, h2, ih]
    · by_cases h2 : k0 = k2
      · subst h2
        have : ¬ k = k0 := fun h => h0 h.symm
        simp [hmRemove, hmGet, h0, this]
      · simp [hmRemove, hmGet, h0, h2, ih]

theorem hmGet_hmInsert (m : List (κ × Nat)) (k k2 : κ) (v : Nat) :
    hmGet (hmInsert m k v) k2 = if k = k2 then some v else hmGet m k2 := by
  by_cases h : k = k2 <;> simp [hmInsert, hmGet, h, hmGet_hmRemove]

theorem mem_hmRemove (m : List (κ × Nat)) (k : κ) (p : κ × Nat) :
    p ∈ hmRemove m k → p ∈ m := by
  induction m with
  | nil => simp [hmRemove]
  | cons q rest ih =>
    obtain ⟨k0, v⟩ := q
    by_cases h0 : k0 = k <;> simp only [hmRemove, h0, if_true, if_false] <;>
      intro h
    · exact List.mem_cons_of_mem _ (ih h)
    · rcases List.mem_cons.mp h with h | h
      · exact List.mem_cons.mpr (Or.inl h)
      · exact List.mem_cons_of_mem _ (ih h)

theorem mem_hmInsert (m : List (κ × Nat)) (k : κ) (v : Nat) (p : κ × Nat) :
    p ∈ hmInsert m k v → p = (k, v) ∨ p ∈ m := by
  intro h
  rcases List.mem_cons.mp h with h | h
  · exact Or.inl h
  · exact Or.inr (mem_hmRemove m k p h)

theorem not_mem_keys_hmRemove (m : List (κ × Nat)) (k : κ) :
    k ∉ (hmRemove m k).map Prod.fst := by
  induction m with
  | nil => simp [hmRemove]
  | cons q rest ih =>
    obtain ⟨k0, v⟩ := q
    by_cases h0 : k0 = k <;> simp only [hmRemove, h0, if_true, if_false]
    · exact ih
    · simp only [List.map_cons, List.mem_cons]
      rintro (h | h)
      · exact h0 h.symm
      · exact ih h

theorem nodupKeys_hmRemove (m : List (κ × Nat)) (k : κ) :
    NodupKeys m → NodupKeys (hmRemove m k) := by
  induction m with
  | nil => intro _; simp [hmRemove, NodupKeys]
  | cons q rest ih =>
    obtain ⟨k0, v⟩ := q
    intro h
    have h1 : k0 ∉ rest.map Prod.fst := by
      have := (List.nodup_cons.mp h).1; simpa using this
    have h2 : NodupKeys rest := (List.nodup_cons.mp h).2
    by_cases h0 : k0 = k <;> simp only [hmRemove, h0, if_true, if_false]
    · exact ih h2
    · refine List.nodup_cons.mpr ⟨?_, ih h2⟩
      intro hmem
      rcases List.mem_map.mp hmem with ⟨p, hp, hfst⟩
      exact h1 (List.mem_map.mpr ⟨p, mem_hmRemove rest k p hp, hfst⟩)

theorem nodupKeys_hmInsert (m : List (κ × Nat)) (k : κ) (v : Nat) :
    NodupKeys m → NodupKeys (hmInsert m k v) := by
  intro h
  refine List.nodup_cons.mpr ⟨?_, nodupKeys_hmRemove m k h⟩
  exact not_mem_keys_hmRemove m k

theorem hmGet_of_mem (m : List (κ × Nat)) (k : κ) (i : Nat) :
    NodupKeys m → (k, i) ∈ m → hmGet m k = some i := by
  induction m with
  | nil => simp
  | cons q rest ih =>
    obtain ⟨k0, v⟩ := q
    intro hnd hmem
    have h1 : k0 ∉ rest.map Prod.fst := by
      have := (List.nodup_cons.mp hnd).1; simpa using this
    have h2 : NodupKeys rest := (List.nodup_cons.mp hnd).2
    rcases List.mem_cons.mp hmem with h | h
    · injection h with hk hv
      subst hk; subst hv
      simp [hmGet]
    · by_cases h0 : k0 = k
      · exfalso
        exact h1 (List.mem_map.mpr ⟨(k, i), h, by simpa using h0.symm⟩)
      · simp [hmGet, h0, ih h2 h]

theorem mem_of_hmGet (m : List (κ × Nat)) (k : κ) (i : Nat) :
    hmGet m k = some i → (k, i) ∈ m := by
  induction m with
  | nil => simp [hmGet]
  | cons q rest ih =>
    obtain ⟨k0, v⟩ := q
    by_cases h0 : k0 = k <;> simp only [hmGet, h0, if_true, if_false]
    · intro h
      subst h0
      exact List.mem_cons.mpr (Or.inl (by simpa using h.symm))
    · intro h
      exact List.mem_cons_of_mem _ (ih h)

end HashMapModel

/-! ### The `KvStore` of `src/lib.rs` -/

namespace KV

/-- The `LogCommand` enum of `src/lib.rs`. -/
inductive Cmd where
  | set
  | remove
deriving DecidableEq

/-- The `LogEntry` struct of `src/lib.rs` (`cmd`, `key`, optional `val`). -/
structure Entry where
  cmd : Cmd
  key : String
  val : Option String
deriving DecidableEq

/-- The error values a `KvStore` operation can return
(`KeyNotFoundError`, `InternalKvError`). -/
inductive Err where
  | keyNotFound (key : String)
  | internalKv
deriving DecidableEq

/-- State of a `KvStore` (`src/lib.rs`): the in-memory `log.entries`, the
`log_len` counter (number of entries at the last load or flush), the
`store` index from key to a position in `log`, the name of the owned file
(fixed when the store is opened) and `disk`, the parsed content of that
file (the JSON snapshot `flush_to_disk` writes). -/
structure St where
  log : List Entry
  logLen : Nat
  store : List (String × Nat)
  fileName : String
  disk : List Entry
deriving DecidableEq

/-- Loop body of `KvStore::build_index`: walk the enumerated entries,
`Set` inserts the position, `Remove` erases the key. -/
def buildIndexAux : List Entry → Nat → List (String × Nat) → List (String × Nat)
  | [], _, m => m
  | e :: rest, i, m =>
    buildIndexAux rest (i + 1)
      (match e.cmd with
       | .set => hmInsert m e.key i
       | .remove => hmRemove m e.key)

/-- Transcription of `KvStore::build_index`. -/
def buildIndex (l : List Entry) : List (String × Nat) :=
  buildIndexAux l 0 []

/-- Transcription of `KvStore::get`: look the key up in `store`, then look
the position up in `log.entries`; a dangling position is `InternalKvError`. -/
def get (s : St) (key : String) : Except Err (Option String) :=
  match hmGet s.store key with
  | some idx =>
    match s.log[idx]? with
    | some e => .ok e.val
    | none => .error .internalKv
  | none => .ok none

/-- The loop of `KvStore::compact_log`: replay every index entry into a
new log, in index-iteration order; a dangling position aborts with
`InternalKvError`. -/
def collectLive : List (String × Nat) → List Entry → Except Err (List Entry)
  | [], _ => .ok []
  | (_, idx) :: rest, log =>
    match log[idx]? with
    | some e => (collectLive rest log).map (fun l => e :: l)
    | none => .error .internalKv

/-- Transcription of `KvStore::compact_log`: replace `log` by the replayed
live entries, set `log_len` to its length and rebuild `store`.  No file is
touched here. -/
def compactLog (s : St) : Except Err St :=
  match collectLive s.store s.log with
  | .error e => .error e
  | .ok newLog =>
    .ok { s with log := newLog, logLen := newLog.length,
                 store := buildIndex newLog }

/-- Transcription of `KvStore::flush_to_disk`: skipped entirely when the
in-memory log is empty; otherwise the file is rewritten from offset 0 with
the whole log and `log_len` is reset. -/
def flushToDisk (s : St) : St :=
  if s.log.length = 0 then s
  else { s with disk := s.log, logLen := s.log.length }

/-- Transcription of `KvStore::try_compaction` with
`COMPACTION_THRESHOLD = 4`: compact (and then flush) only when at least 4
entries were appended since the last load or flush.  The subtraction is
`usize` subtraction, defined only when `log_len ≤ log.entries.len()`,
which holds in every reachable state; `Nat` subtraction agrees there. -/
def tryCompaction (s : St) : Except Err St :=
  if s.log.length - s.logLen < 4 then .ok s
  else
    match compactLog s with
    | .error e => .error e
    | .ok t => .ok (flushToDisk t)

/-- Transcription of `KvStore::set`.  The pair holds the returned `Result`
and the state of `self` afterwards; when `try_compaction` fails, `self`
keeps the pushed entry and the updated index (the error is raised before
`compact_log` mutates `self`). -/
def set (s : St) (key val : String) : Except Err Unit × St :=
  let s1 : St :=
    { s with log := s.log ++ [⟨.set, key, some val⟩],
             store := hmInsert s.store key s.log.length }
  match tryCompaction s1 with
  | .ok t => (.ok (), t)
  | .error e => (.error e, s1)

/-- Transcription of `KvStore::remove`: a key absent from `store` fails
with `KeyNotFoundError` before anything is mutated. -/
def remove (s : St) (key : String) : Except Err Unit × St :=
  if hmGet s.store key = none then (.error (.keyNotFound key), s)
  else
    let s1 : St :=
      { s with log := s.log ++ [⟨.remove, key, none⟩],
               store := hmRemove s.store key }
    match tryCompaction s1 with
    | .ok t => (.ok (), t)
    | .error e => (.error e, s1)

/-- Transcription of `KvStore::old_open` on an existing directory, as a
function of the parsed content of `dir/kv_store.json` (`none` when that
file does not exist yet; the code then seeds the file with an empty
`Log` and reads it back). -/
def oldOpen (disk0 : Option (List Entry)) : St :=
  let d := disk0.getD []
  { log := d, logLen := d.length, store := buildIndex d,
    fileName := "kv_store.json", disk := d }

/-- One mutating API call of the store. -/
inductive Op where
  | set (key val : String)
  | remove (key : String)
deriving DecidableEq

/-- Apply one operation to the store state (a failed `remove` leaves the
state unchanged, matching `&mut self` semantics). -/
def applyOp (s : St) (op : Op) : St :=
  match op with
  | .set k v => (set s k v).2
  | .remove k => (remove s k).2

/-- Run a sequence of operations. -/
def runOps (s : St) (ops : List Op) : St :=
  ops.foldl applyOp s

/-- Observable value bound to a key: the payload `get` returns whenever
the index position resolves. -/
def interp (s : St) (k : String) : Option String :=
  match hmGet s.store k with
  | some i =>
    match s.log[i]? with
    | some e => e.val
    | none => none
  | none => none

/-- One index binding is healthy: it points inside the log, at a `Set`
entry carrying exactly that key. -/
def entryOkB (l : List Entry) (p : String × Nat) : Bool :=
  (l[p.2]?).any (fun e => e.cmd == .set && e.key == p.1)

/-- Index invariant of the store: no duplicate keys, and every binding is
healthy. -/
def Inv (s : St) : Prop :=
  NodupKeys s.store ∧ ∀ p ∈ s.store, entryOkB s.log p = true

instance (s : St) : Decidable (Inv s) := by
  unfold Inv; infer_instance

theorem entryOkB_iff (l : List Entry) (p : String × Nat) :
    entryOkB l p = true ↔
      ∃ e, l[p.2]? = some e ∧ e.cmd = .set ∧ e.key = p.1 := by
  cases h : l[p.2]? <;> simp [entryOkB, h]

end KV

namespace KV

/-- Net effect of scanning a list of entries on one key: `none` when no
entry touches the key, `some none` when the last touching entry is a
`Remove`, `some (some j)` when the last touching entry is the `Set` at
position `j`. -/
def idxAfter : List Entry → String → Option (Option Nat)
  | [], _ => none
  | e :: rest, k =>
    match idxAfter rest k with
    | some r => some (r.map (· + 1))
    | none =>
      if e.key = k then
        match e.cmd with
        | .set => some (some 0)
        | .remove => some none
      else none

theorem hmGet_buildIndexAux (l : List Entry) (k : String) :
    ∀ (i : Nat) (m : List (String × Nat)),
      hmGet (buildIndexAux l i m) k =
        match idxAfter l k with
        | some (some j) => some (i + j)
        | some none => none
        | none => hmGet m k := by
  induction l with
  | nil => intro i m; simp [buildIndexAux, idxAfter]
  | cons e rest ih =>
    intro i m
    simp only [buildIndexAux]
    rw [ih]
    cases hr : idxAfter rest k with
    | some r =>
      cases r with
      | some j =>
        have h2 : idxAfter (e :: rest) k = some (some (j + 1)) := by
          simp [idxAfter, hr]
        rw [h2]
        show some (i + 1 + j) = some (i + (j + 1))
        exact congrArg some (by omega)
      | none => simp [idxAfter, hr]
    | none =>
      by_cases hk : e.key = k
      · cases hc : e.cmd <;>
          simp [idxAfter, hr, hk, hc, hmGet_hmInsert, hmGet_hmRemove]
      · cases hc : e.cmd <;>
          simp [idxAfter, hr, hk, hc, hmGet_hmInsert, hmGet_hmRemove]

theorem hmGet_buildIndex (l : List Entry) (k : String) :
    hmGet (buildIndex l) k =
      match idxAfter l k with
      | some (some j) => some j
      | _ => none := by
  rw [buildIndex, hmGet_buildIndexAux]
  cases h : idxAfter l k with
  | some r => cases r <;> simp
  | none => simp [hmGet]

theorem idxAfter_sound (l : List Entry) (k : String) (j : Nat) :
    idxAfter l k = some (some j) →
      ∃ e, l[j]? = some e ∧ e.cmd = .set ∧ e.key = k := by
  induction l generalizing j with
  | nil => simp [idxAfter]
  | cons e rest ih =>
    intro h
    simp only [idxAfter] at h
    cases hr : idxAfter rest k with
    | some r =>
      rw [hr] at h
      cases r with
      | some j0 =>
        simp at h
        subst h
        obtain ⟨e0, h1, h2, h3⟩ := ih (j := j0) hr
        exact ⟨e0, by simpa using h1, h2, h3⟩
      | none => simp at h
    | none =>
      rw [hr] at h
      by_cases hk : e.key = k
      · rw [if_pos hk] at h
        cases hc : e.cmd <;> rw [hc] at h
        · simp only [Option.some.injEq] at h
          exact ⟨e, by simp [← h], hc, hk⟩
        · simp at h
      · rw [if_neg hk] at h
        simp at h

theorem idxAfter_of_no_touch (l : List Entry) (k : String) :
    (∀ e ∈ l, e.key ≠ k) → idxAfter l k = none := by
  induction l with
  | nil => intro _; simp [idxAfter]
  | cons e rest ih =>
    intro h
    have hrest : idxAfter rest k = none :=
      ih fun e2 he2 => h e2 (List.mem_cons_of_mem _ he2)
    have hk : e.key ≠ k := h e (List.mem_cons_self e rest)
    simp [idxAfter, hrest, hk]

/-- Value of the unique entry of key `k` in an all-`Set` log with nodup
keys (the shape `compact_log` and `collectLive` produce). -/
def lookupLive (l : List Entry) (k : String) : Option String :=
  match l.find? (fun e => e.key == k) with
  | some e => e.val
  | none => none

theorem idxAfter_find (l : List Entry)
    (hset : ∀ e ∈ l, e.cmd = .set)
    (hnd : (l.map Entry.key).Nodup) (k : String) :
    match l.find? (fun e => e.key == k) with
    | some e0 => ∃ j, idxAfter l k = some (some j) ∧ l[j]? = some e0
    | none => idxAfter l k = none := by
  induction l with
  | nil => simp [idxAfter]
  | cons e rest ih =>
    have hset2 : ∀ e2 ∈ rest, e2.cmd = .set :=
      fun e2 he2 => hset e2 (List.mem_cons_of_mem _ he2)
    have hnd1 : e.key ∉ rest.map Entry.key := (List.nodup_cons.mp hnd).1
    have hnd2 : (rest.map Entry.key).Nodup := (List.nodup_cons.mp hnd).2
    by_cases hk : e.key = k
    · have hfind : (e :: rest).find? (fun e2 => e2.key == k) = some e := by
        simp [List.find?, hk]
      rw [hfind]
      have hrest : idxAfter rest k = none := by
        refine idxAfter_of_no_touch rest k fun e2 he2 hke2 => ?_
        exact hnd1 (List.mem_map.mpr ⟨e2, he2, by rw [hke2, ← hk]⟩)
      refine ⟨0, ?_, by simp⟩
      simp [idxAfter, hrest, hk, hset e (List.mem_cons_self e rest)]
    · have hb : (e.key == k) = false := by simp [hk]
      have hfind : (e :: rest).find? (fun e2 => e2.key == k) =
          rest.find? (fun e2 => e2.key == k) := by
        simp [List.find?, hb]
      rw [hfind]
      have := ih hset2 hnd2
      cases hf : rest.find? (fun e2 => e2.key == k) with
      | some e0 =>
        rw [hf] at this
        obtain ⟨j, h1, h2⟩ := this
        refine ⟨j + 1, ?_, by simpa using h2⟩
        simp [idxAfter, h1]
      | none =>
        rw [hf] at this
        simp [idxAfter, this, hk]

theorem interp_buildIndex (l : List Entry)
    (hset : ∀ e ∈ l, e.cmd = .set)
    (hnd : (l.map Entry.key).Nodup) (k : String) :
    (match hmGet (buildIndex l) k with
     | some j =>
       match l[j]? with
       | some e => e.val
       | none => none
     | none => none) = lookupLive l k := by
  have hfind := idxAfter_find l hset hnd k
  unfold lookupLive
  rw [hmGet_buildIndex]
  cases hf : l.find? (fun e => e.key == k) with
  | some e0 =>
    rw [hf] at hfind
    obtain ⟨j, h1, h2⟩ := hfind
    rw [h1]
    simp [h2]
  | none =>
    rw [hf] at hfind
    rw [hfind]

theorem nodupKeys_buildIndexAux (l : List Entry) :
    ∀ (i : Nat) (m : List (String × Nat)),
      NodupKeys m → NodupKeys (buildIndexAux l i m) := by
  induction l with
  | nil => intro i m h; simpa [buildIndexAux] using h
  | cons e rest ih =>
    intro i m h
    simp only [buildIndexAux]
    refine ih _ _ ?_
    cases e.cmd
    · exact nodupKeys_hmInsert m e.key i h
    · exact nodupKeys_hmRemove m e.key h

theorem nodupKeys_buildIndex (l : List Entry) : NodupKeys (buildIndex l) :=
  nodupKeys_buildIndexAux l 0 [] (by simp [NodupKeys])

theorem entryOkB_buildIndex (l : List Entry) :
    ∀ p ∈ buildIndex l, entryOkB l p = true := by
  rintro ⟨k, i⟩ hp
  have hget : hmGet (buildIndex l) k = some i :=
    hmGet_of_mem _ _ _ (nodupKeys_buildIndex l) hp
  rw [hmGet_buildIndex] at hget
  cases hr : idxAfter l k with
  | some r =>
    rw [hr] at hget
    cases r with
    | some j =>
      simp only [Option.some.injEq] at hget
      subst hget
      obtain ⟨e, h1, h2, h3⟩ := idxAfter_sound l k j hr
      exact (entryOkB_iff l (k, j)).mpr ⟨e, h1, h2, h3⟩
    | none => simp at hget
  | none => rw [hr] at hget; simp at hget

end KV

namespace KV

/-- Value read out of the log through an optional index position. -/
def logVal (log : List Entry) (r : Option Nat) : Option String :=
  match r with
  | some i =>
    match log[i]? with
    | some e => e.val
    | none => none
  | none => none

theorem interp_eq_logVal (s : St) (k : String) :
    interp s k = logVal s.log (hmGet s.store k) := rfl

theorem getElem?_append_of_some {α : Type} (l l2 : List α) (i : Nat) (a : α)
    (h : l[i]? = some a) : (l ++ l2)[i]? = some a := by
  have hlt : i < l.length := by
    by_contra hge
    rw [List.getElem?_eq_none (by omega)] at h
    exact Option.noConfusion h
  rw [List.getElem?_append, if_pos hlt, h]

theorem collectLive_ok (log : List Entry) :
    ∀ pairs : List (String × Nat),
      (∀ p ∈ pairs, entryOkB log p = true) →
      ∃ nl, collectLive pairs log = .ok nl ∧
        nl.map Entry.key = pairs.map Prod.fst ∧
        (∀ e ∈ nl, e.cmd = .set) ∧
        (∀ k, lookupLive nl k = logVal log (hmGet pairs k)) := by
  intro pairs
  induction pairs with
  | nil =>
    intro _
    exact ⟨[], rfl, by simp, by simp,
      fun k => by simp [lookupLive, hmGet, logVal, List.find?]⟩
  | cons p rest ih =>
    intro hok
    obtain ⟨k0, i0⟩ := p
    have h0 := hok (k0, i0) (List.mem_cons_self _ _)
    obtain ⟨e0, he0, hcmd, hkey⟩ := (entryOkB_iff log (k0, i0)).mp h0
    obtain ⟨nl, h1, h2, h3, h4⟩ := ih (fun p hp => hok p (List.mem_cons_of_mem _ hp))
    refine ⟨e0 :: nl, ?_, ?_, ?_, ?_⟩
    · simp [collectLive, he0, h1, Except.map]
    · simp [h2, hkey]
    · intro e he
      rcases List.mem_cons.mp he with h | h
      · rw [h]; exact hcmd
      · exact h3 e h
    · intro k
      by_cases hk : k0 = k
      · subst hk
        have hb : (e0.key == k0) = true := by simp [hkey]
        simp [lookupLive, List.find?, hb, hmGet, logVal, he0]
      · have hb : (e0.key == k) = false := by
          simp only [beq_eq_false_iff_ne, ne_eq, hkey]
          exact fun h => hk h
        have hl : lookupLive (e0 :: nl) k = lookupLive nl k := by
          simp [lookupLive, List.find?, hb]
        rw [hl, h4 k]
        simp [hmGet, hk]

theorem compactLog_ok (s : St) (hInv : Inv s) :
    ∃ t, compactLog s = .ok t ∧
      t.log.length = s.store.length ∧
      t.logLen = t.log.length ∧
      t.store = buildIndex t.log ∧
      t.fileName = s.fileName ∧
      t.disk = s.disk ∧
      Inv t ∧
      (∀ k, interp t k = interp s k) := by
  obtain ⟨hnd, hok⟩ := hInv
  obtain ⟨nl, h1, h2, h3, h4⟩ := collectLive_ok s.log s.store hok
  have hlen : nl.length = s.store.length := by
    have := congrArg List.length h2
    simpa using this
  have hndnl : (nl.map Entry.key).Nodup := by rw [h2]; exact hnd
  refine ⟨{ s with log := nl, logLen := nl.length, store := buildIndex nl },
    ?_, hlen, rfl, rfl, rfl, rfl, ⟨nodupKeys_buildIndex nl, entryOkB_buildIndex nl⟩,
    fun k => ?_⟩
  · simp [compactLog, h1]
  · show logVal nl (hmGet (buildIndex nl) k) = interp s k
    have hbi : logVal nl (hmGet (buildIndex nl) k) = lookupLive nl k :=
      interp_buildIndex nl h3 hndnl k
    rw [hbi, h4 k, interp_eq_logVal]

theorem flushToDisk_log (s : St) : (flushToDisk s).log = s.log := by
  unfold flushToDisk; split <;> rfl

theorem flushToDisk_store (s : St) : (flushToDisk s).store = s.store := by
  unfold flushToDisk; split <;> rfl

theorem flushToDisk_fileName (s : St) : (flushToDisk s).fileName = s.fileName := by
  unfold flushToDisk; split <;> rfl

theorem inv_flushToDisk (s : St) : Inv (flushToDisk s) ↔ Inv s := by
  unfold flushToDisk; split <;> exact Iff.rfl

theorem interp_flushToDisk (s : St) (k : String) :
    interp (flushToDisk s) k = interp s k := by
  unfold flushToDisk; split <;> rfl

theorem tryCompaction_ok (s : St) (hInv : Inv s) :
    ∃ t, tryCompaction s = .ok t ∧ Inv t ∧ t.fileName = s.fileName ∧
      (∀ k, interp t k = interp s k) := by
  unfold tryCompaction
  split
  · exact ⟨s, rfl, hInv, rfl, fun k => rfl⟩
  · obtain ⟨t, h1, _, _, _, hfn, _, hInvT, hint⟩ := compactLog_ok s hInv
    rw [h1]
    refine ⟨flushToDisk t, rfl, (inv_flushToDisk t).mpr hInvT, ?_, fun k => ?_⟩
    · rw [flushToDisk_fileName, hfn]
    · rw [interp_flushToDisk, hint k]

end KV

namespace KV

theorem inv_oldOpen (d : Option (List Entry)) : Inv (oldOpen d) :=
  ⟨nodupKeys_buildIndex _, entryOkB_buildIndex _⟩

theorem get_eq_interp (s : St) (k : String) (hInv : Inv s) :
    get s k = .ok (interp s k) := by
  cases hg : hmGet s.store k with
  | none => simp [get, interp, hg]
  | some i =>
    obtain ⟨e, he, _, _⟩ :=
      (entryOkB_iff s.log (k, i)).mp (hInv.2 (k, i) (mem_of_hmGet _ _ _ hg))
    simp [get, interp, hg, he]

/-- Abstract effect of one operation on the key-to-value map: the ideal
semantics of a key-value store. -/
def specOp (op : Op) (m : String → Option String) : String → Option String :=
  match op with
  | .set k v => fun k2 => if k2 = k then some v else m k2
  | .remove k => fun k2 => if k2 = k then none else m k2

/-- Abstract effect of a sequence of operations. -/
def specRun (m : String → Option String) (ops : List Op) : String → Option String :=
  ops.foldl (fun m op => specOp op m) m

theorem set_step (s : St) (k v : String) (hInv : Inv s) :
    ∃ t, set s k v = (.ok (), t) ∧ Inv t ∧ t.fileName = s.fileName ∧
      (∀ k2, interp t k2 = if k2 = k then some v else interp s k2) := by
  obtain ⟨hnd, hok⟩ := hInv
  set e0 : Entry := ⟨.set, k, some v⟩ with he0
  set s1 : St :=
    { s with log := s.log ++ [e0], store := hmInsert s.store k s.log.length }
    with hs1
  have hInv1 : Inv s1 := by
    refine ⟨nodupKeys_hmInsert _ _ _ hnd, ?_⟩
    intro p hp
    rcases mem_hmInsert _ _ _ _ hp with h | h
    · subst h
      refine (entryOkB_iff _ _).mpr ⟨e0, ?_, rfl, rfl⟩
      show (s.log ++ [e0])[s.log.length]? = some e0
      simp
    · obtain ⟨e, he, hc, hk⟩ := (entryOkB_iff s.log p).mp (hok p h)
      exact (entryOkB_iff _ _).mpr
        ⟨e, getElem?_append_of_some _ _ _ _ he, hc, hk⟩
  have hint1 : ∀ k2, interp s1 k2 = if k2 = k then some v else interp s k2 := by
    intro k2
    rw [interp_eq_logVal, interp_eq_logVal]
    show logVal (s.log ++ [e0]) (hmGet (hmInsert s.store k s.log.length) k2) = _
    rw [hmGet_hmInsert]
    by_cases hk2 : k2 = k
    · have : (k = k2) := hk2.symm
      rw [if_pos this, if_pos hk2]
      show logVal (s.log ++ [e0]) (some s.log.length) = some v
      simp [logVal]
    · have : ¬ (k = k2) := fun h => hk2 h.symm
      rw [if_neg this, if_neg hk2]
      cases hg : hmGet s.store k2 with
      | none => simp [logVal]
      | some i =>
        obtain ⟨e, he, _, _⟩ :=
          (entryOkB_iff s.log (k2, i)).mp (hok (k2, i) (mem_of_hmGet _ _ _ hg))
        simp [logVal, he, getElem?_append_of_some _ _ _ _ he]
  obtain ⟨t, h1, h2, h3, h4⟩ := tryCompaction_ok s1 hInv1
  refine ⟨t, ?_, h2, h3, fun k2 => ?_⟩
  · show (match tryCompaction s1 with
      | .ok t => ((.ok () : Except Err Unit), t)
      | .error e => (.error e, s1)) = (.ok (), t)
    rw [h1]
  · rw [h4 k2, hint1 k2]

theorem remove_step (s : St) (k : String) (hInv : Inv s) :
    Inv (remove s k).2 ∧ ((remove s k).2.fileName = s.fileName) ∧
      (∀ k2, interp (remove s k).2 k2 = if k2 = k then none else interp s k2) := by
  obtain ⟨hnd, hok⟩ := hInv
  by_cases hc : hmGet s.store k = none
  · have hr : remove s k = (.error (.keyNotFound k), s) := by
      simp [remove, hc]
    rw [hr]
    refine ⟨⟨hnd, hok⟩, rfl, fun k2 => ?_⟩
    by_cases hk2 : k2 = k
    · subst hk2
      rw [if_pos rfl, interp_eq_logVal, hc]
      rfl
    · rw [if_neg hk2]
  · set e0 : Entry := ⟨.remove, k, none⟩ with he0
    set s1 : St :=
      { s with log := s.log ++ [e0], store := hmRemove s.store k } with hs1
    have hInv1 : Inv s1 := by
      refine ⟨nodupKeys_hmRemove _ _ hnd, ?_⟩
      intro p hp
      have h2 := mem_hmRemove _ _ _ hp
      obtain ⟨e, he, hcm, hk⟩ := (entryOkB_iff s.log p).mp (hok p h2)
      exact (entryOkB_iff _ _).mpr
        ⟨e, getElem?_append_of_some _ _ _ _ he, hcm, hk⟩
    have hint1 : ∀ k2, interp s1 k2 = if k2 = k then none else interp s k2 := by
      intro k2
      rw [interp_eq_logVal, interp_eq_logVal]
      show logVal (s.log ++ [e0]) (hmGet (hmRemove s.store k) k2) = _
      rw [hmGet_hmRemove]
      by_cases hk2 : k2 = k
      · rw [if_pos hk2.symm, if_pos hk2]
        rfl
      · rw [if_neg (fun h => hk2 h.symm), if_neg hk2]
        cases hg : hmGet s.store k2 with
        | none => simp [logVal]
        | some i =>
          obtain ⟨e, he, _, _⟩ :=
            (entryOkB_iff s.log (k2, i)).mp (hok (k2, i) (mem_of_hmGet _ _ _ hg))
          simp [logVal, he, getElem?_append_of_some _ _ _ _ he]
    obtain ⟨t, h1, h2, h3, h4⟩ := tryCompaction_ok s1 hInv1
    have hr : remove s k = (.ok (), t) := by
      show (if hmGet s.store k = none
            then ((.error (.keyNotFound k) : Except Err Unit), s)
            else match tryCompaction s1 with
              | .ok t => ((.ok () : Except Err Unit), t)
              | .error e => (.error e, s1)) = (.ok (), t)
      rw [if_neg hc, h1]
    rw [hr]
    exact ⟨h2, h3, fun k2 => by rw [h4 k2, hint1 k2]⟩

theorem applyOp_step (s : St) (op : Op) (hInv : Inv s) :
    Inv (applyOp s op) ∧ (applyOp s op).fileName = s.fileName ∧
      (∀ k2, interp (applyOp s op) k2 = specOp op (interp s) k2) := by
  cases op with
  | set k v =>
    obtain ⟨t, h1, h2, h3, h4⟩ := set_step s k v hInv
    have : applyOp s (.set k v) = t := by
      show (set s k v).2 = t
      rw [h1]
    rw [this]
    exact ⟨h2, h3, h4⟩
  | remove k =>
    obtain ⟨h1, h2, h3⟩ := remove_step s k hInv
    exact ⟨h1, h2, h3⟩

theorem runOps_step (ops : List Op) : ∀ s, Inv s →
    Inv (runOps s ops) ∧ (runOps s ops).fileName = s.fileName ∧
      (∀ k2, interp (runOps s ops) k2 = specRun (interp s) ops k2) := by
  induction ops with
  | nil => intro s h; exact ⟨h, rfl, fun k2 => rfl⟩
  | cons op rest ih =>
    intro s h
    obtain ⟨h1, hf1, h2⟩ := applyOp_step s op h
    obtain ⟨h3, hf2, h4⟩ := ih (applyOp s op) h1
    have hfun : interp (applyOp s op) = specOp op (interp s) := funext h2
    refine ⟨h3, ?_, fun k2 => ?_⟩
    · show (runOps (applyOp s op) rest).fileName = s.fileName
      rw [hf2, hf1]
    · show interp (runOps (applyOp s op) rest) k2 = specRun (interp s) (op :: rest) k2
      rw [h4 k2, hfun]
      rfl

end KV

namespace KV

/-- Whether an operation touches key `k`. -/
def touches (op : Op) (k : String) : Bool :=
  match op with
  | .set k2 _ => k2 == k
  | .remove k2 => k2 == k

/-- The last operation of the sequence that touches `k`. -/
def lastTouch : List Op → String → Option Op
  | [], _ => none
  | op :: rest, k =>
    match lastTouch rest k with
    | some o => some o
    | none => if touches op k then some op else none

theorem specRun_of_no_touch (ops : List Op) :
    ∀ (m : String → Option String) (k : String),
      lastTouch ops k = none → specRun m ops k = m k := by
  induction ops with
  | nil => intro m k _; rfl
  | cons op rest ih =>
    intro m k h
    simp only [lastTouch] at h
    cases hr : lastTouch rest k with
    | some o => rw [hr] at h; exact absurd h (by simp)
    | none =>
      rw [hr] at h
      have ht : touches op k = false := by
        by_cases htk : touches op k
        · rw [if_pos htk] at h; exact absurd h (by simp)
        · simpa using htk
      show specRun (specOp op m) rest k = m k
      rw [ih (specOp op m) k hr]
      cases op with
      | set k2 v =>
        have hne : ¬ (k = k2) := by
          intro he
          rw [show touches (Op.set k2 v) k = (k2 == k) from rfl] at ht
          simp [he] at ht
        simp [specOp, hne]
      | remove k2 =>
        have hne : ¬ (k = k2) := by
          intro he
          rw [show touches (Op.remove k2) k = (k2 == k) from rfl] at ht
          simp [he] at ht
        simp [specOp, hne]

theorem specRun_lastSet (ops : List Op) :
    ∀ (m : String → Option String) (k v : String),
      lastTouch ops k = some (.set k v) → specRun m ops k = some v := by
  induction ops with
  | nil => intro m k v h; simp [lastTouch] at h
  | cons op rest ih =>
    intro m k v h
    simp only [lastTouch] at h
    cases hr : lastTouch rest k with
    | some o =>
      rw [hr] at h
      injection h with ho
      exact ih (specOp op m) k v (by rw [hr, ho])
    | none =>
      rw [hr] at h
      by_cases htk : touches op k
      · rw [if_pos htk] at h
        injection h with ho
        subst ho
        show specRun (specOp (Op.set k v) m) rest k = some v
        rw [specRun_of_no_touch rest _ k hr]
        simp [specOp]
      · rw [if_neg htk] at h
        exact absurd h (by simp)

/-- States reachable through the public API from an `old_open`. -/
inductive Reach : St → Prop where
  | opened (d : Option (List Entry)) : Reach (oldOpen d)
  | step (s : St) (op : Op) : Reach s → Reach (applyOp s op)

theorem inv_of_reach (s : St) (h : Reach s) : Inv s := by
  induction h with
  | opened d => exact inv_oldOpen d
  | step s op _ ih => exact (applyOp_step s op ih).1

/-- Outcome of `KvStore::open` (`src/lib.rs`): the only implemented branch
is the directory check; an existing directory reaches `unimplemented!()`,
which panics, so no store is ever returned. -/
inductive OpenOutcome where
  | errInvalidPath
  | panicUnimplemented
deriving DecidableEq

/-- Transcription of `KvStore::open` as a function of whether the argument
path is an existing directory (`path.is_dir()`, false for a missing path). -/
def kvOpen (isDir : Bool) : OpenOutcome :=
  if isDir then .panicUnimplemented else .errInvalidPath

end KV

instance {ε α : Type} [DecidableEq ε] [DecidableEq α] : DecidableEq (Except ε α) := fun a b =>
  match a, b with
  | .ok x, .ok y =>
    if h : x = y then isTrue (by rw [h])
    else isFalse (fun hc => h (Except.ok.inj hc))
  | .error x, .error y =>
    if h : x = y then isTrue (by rw [h])
    else isFalse (fun hc => h (Except.error.inj hc))
  | .ok _, .error _ => isFalse (fun hc => Except.noConfusion hc)
  | .error _, .ok _ => isFalse (fun hc => Except.noConfusion hc)

/-! ### Claims about the `KvStore` layer -/

/-- C2 (amended): `try_compaction` compacts iff at least
`COMPACTION_THRESHOLD = 4` entries were appended since the last load or
flush; below the threshold the store is returned unchanged, at or above it
the log is replaced by the live entries (one per index binding), the index
is rebuilt, the file is rewritten when the new log is non-empty (and left
stale when it is empty), and the observable key-value map is preserved. -/
theorem c2_try_compaction_threshold (s : KV.St)
    (hle : s.logLen ≤ s.log.length) (hInv : KV.Inv s) :
    (s.log.length - s.logLen < 4 → KV.tryCompaction s = .ok s) ∧
    (4 ≤ s.log.length - s.logLen →
      ∃ t, KV.tryCompaction s = .ok t ∧
        t.log.length = s.store.length ∧ t.logLen = t.log.length ∧
        t.fileName = s.fileName ∧ t.store = KV.buildIndex t.log ∧
        (t.log.length ≠ 0 → t.disk = t.log) ∧
        (t.log.length = 0 → t.disk = s.disk) ∧
        (∀ k, KV.interp t k = KV.interp s k)) := by
  constructor
  · intro h
    simp [KV.tryCompaction, h]
  · intro h
    obtain ⟨u, h1, hlen, hll, hst, hfn, hdk, hInvU, hint⟩ := KV.compactLog_ok s hInv
    have hnot : ¬ (s.log.length - s.logLen < 4) := by omega
    refine ⟨KV.flushToDisk u, by simp [KV.tryCompaction, hnot, h1],
      ?_, ?_, ?_, ?_, ?_, ?_, fun k => ?_⟩
    · rw [KV.flushToDisk_log]; exact hlen
    · rw [KV.flushToDisk_log]
      unfold KV.flushToDisk
      split
      · exact hll
      · rfl
    · rw [KV.flushToDisk_fileName]; exact hfn
    · rw [KV.flushToDisk_log, KV.flushToDisk_store]; exact hst
    · intro hne
      rw [KV.flushToDisk_log] at hne ⊢
      unfold KV.flushToDisk
      rw [if_neg hne]
    · intro hz
      rw [KV.flushToDisk_log] at hz
      show (KV.flushToDisk u).disk = s.disk
      unfold KV.flushToDisk
      rw [if_pos hz]
      exact hdk
    · rw [KV.interp_flushToDisk, hint k]

/-- The state of the store at the moment `try_compaction` is entered during
the fourth `set` on a freshly opened empty store (the entry is pushed and
the index updated before the compaction check runs). -/
def c2cState : KV.St :=
  let s3 := KV.runOps (KV.oldOpen none)
    [KV.Op.set "a" "1", KV.Op.set "b" "2", KV.Op.set "c" "3"]
  { s3 with log := s3.log ++ [⟨KV.Cmd.set, "d", some "4"⟩],
            store := hmInsert s3.store "d" s3.log.length }

/-- C2 (counterexample): at the compaction check `len = 4` and
`index_len = 4`, so `len > 10 × index_len` fails, yet `try_compaction`
compacts anyway (the result has `log_len = 4` while the input had 0): the
trigger in the code is the mutation count, not the 10× dead-record ratio. -/
theorem c2_ratio_counterexample :
    c2cState.log.length = 4 ∧ c2cState.store.length = 4 ∧
    ¬ (c2cState.log.length > 10 * c2cState.store.length) ∧
    (KV.tryCompaction c2cState).toOption.map KV.St.logLen = some 4 ∧
    c2cState.logLen = 0 := by decide

/-- A store holding four live entries appended since the last flush: the
threshold case of `c2_try_compaction_threshold`. -/
def c2wState : KV.St :=
  { log := [⟨KV.Cmd.set, "a", some "1"⟩, ⟨KV.Cmd.set, "b", some "2"⟩,
            ⟨KV.Cmd.set, "c", some "3"⟩, ⟨KV.Cmd.set, "d", some "4"⟩],
    logLen := 0,
    store := KV.buildIndex [⟨KV.Cmd.set, "a", some "1"⟩, ⟨KV.Cmd.set, "b", some "2"⟩,
            ⟨KV.Cmd.set, "c", some "3"⟩, ⟨KV.Cmd.set, "d", some "4"⟩],
    fileName := "kv_store.json", disk := [] }

/-- C2 (witness): `c2_try_compaction_threshold` applied to `c2wState`. -/
theorem c2_try_compaction_threshold_witness :
    c2wState.logLen ≤ c2wState.log.length ∧ KV.Inv c2wState ∧
    ((c2wState.log.length - c2wState.logLen < 4 →
        KV.tryCompaction c2wState = .ok c2wState) ∧
     (4 ≤ c2wState.log.length - c2wState.logLen →
       ∃ t, KV.tryCompaction c2wState = .ok t ∧
         t.log.length = c2wState.store.length ∧ t.logLen = t.log.length ∧
         t.fileName = c2wState.fileName ∧ t.store = KV.buildIndex t.log ∧
         (t.log.length ≠ 0 → t.disk = t.log) ∧
         (t.log.length = 0 → t.disk = c2wState.disk) ∧
         (∀ k, KV.interp t k = KV.interp c2wState k))) :=
  ⟨by decide, by decide,
    c2_try_compaction_threshold c2wState (by decide) (by decide)⟩

/-- C3 (amended): `KvStore::open` fails with `InvalidPathError` exactly
when the path is not an existing directory; on an existing directory it
reaches `unimplemented!()` and panics.  No directory scan, suffix parsing
or file creation is performed (the legacy `old_open` uses the fixed name
`kv_store.json` with no numeric suffix). -/
theorem c3_open_invalid_path_iff (b : Bool) :
    (KV.kvOpen b = .errInvalidPath ↔ b = false) ∧
    (KV.kvOpen b = .panicUnimplemented ↔ b = true) := by
  cases b <;> simp [KV.kvOpen]

/-- C3 (counterexample): on an existing directory `open` panics via
`unimplemented!()` instead of scanning for prefixed files or creating
`prefix.0` and returning a store (`OpenOutcome` has no success case). -/
theorem c3_open_counterexample :
    KV.kvOpen true = KV.OpenOutcome.panicUnimplemented := by decide

/-- C5: after any operation sequence on a freshly opened store whose last
operation touching `k` is `set k v`, `get k` returns `Ok (Some v)` —
including runs in which `try_compaction` compacted the log. -/
theorem c5_last_set_get (d : Option (List KV.Entry)) (ops : List KV.Op)
    (k v : String) (h : KV.lastTouch ops k = some (.set k v)) :
    KV.get (KV.runOps (KV.oldOpen d) ops) k = .ok (some v) := by
  obtain ⟨hInv, _, hint⟩ := KV.runOps_step ops (KV.oldOpen d) (KV.inv_oldOpen d)
  rw [KV.get_eq_interp _ _ hInv, hint k, KV.specRun_lastSet ops _ k v h]

/-- C5 (witness): five sets, the fourth of which triggers a compaction;
the last write to "a" is "9" and `get "a"` returns it. -/
theorem c5_last_set_get_witness :
    KV.lastTouch [KV.Op.set "a" "1", KV.Op.set "b" "2", KV.Op.set "c" "3",
      KV.Op.set "d" "4", KV.Op.set "a" "9"] "a" = some (KV.Op.set "a" "9") ∧
    KV.get (KV.runOps (KV.oldOpen none) [KV.Op.set "a" "1", KV.Op.set "b" "2",
      KV.Op.set "c" "3", KV.Op.set "d" "4", KV.Op.set "a" "9"]) "a"
      = .ok (some "9") :=
  ⟨by decide, c5_last_set_get none _ "a" "9" (by decide)⟩

/-- Operation sequence refuting C6: four sets (the fourth compacts and
flushes the four live entries to disk), then four removes (the fourth
compacts to an empty log, and `flush_to_disk` skips writing an empty log,
leaving the four old `Set` entries on disk). -/
def c6ops : List KV.Op :=
  [.set "a" "1", .set "b" "2", .set "c" "3", .set "d" "4",
   .remove "a", .remove "b", .remove "c", .remove "d"]

/-- C6 (code bug): before closing, `get "a"` is `Ok None`; after the
drop-time flush (which skips the write because the log is empty) and a
reopen of the same directory, `get "a"` is `Ok (Some "1")` — the removed
keys are resurrected, so close/reopen does not preserve `get` results. -/
theorem c6_reopen_resurrects_removed_keys :
    KV.get (KV.runOps (KV.oldOpen none) c6ops) "a" = .ok none ∧
    KV.get (KV.oldOpen
      (some (KV.flushToDisk (KV.runOps (KV.oldOpen none) c6ops)).disk)) "a"
      = .ok (some "1") := by decide

/-- C7 (amended): on any store satisfying the index invariant,
`compact_log` succeeds and only rewrites the in-memory state: the log
becomes the replayed live entries (one per index binding), `log_len` is
set to its length and the index is rebuilt — while the owned file's name
and the on-disk content are untouched (no new file, no deletion, no
generation-suffix change). -/
theorem c7_compact_log_no_file_ops (s : KV.St) (hInv : KV.Inv s) :
    ∃ t, KV.compactLog s = .ok t ∧ t.fileName = s.fileName ∧
      t.disk = s.disk ∧ t.logLen = t.log.length ∧
      t.log.length = s.store.length ∧ t.store = KV.buildIndex t.log := by
  obtain ⟨t, h1, hlen, hll, hst, hfn, hdk, _, _⟩ := KV.compactLog_ok s hInv
  exact ⟨t, h1, hfn, hdk, hll, hlen, hst⟩

/-- A store with one live entry, reached by one `set` on a fresh store. -/
def c7State : KV.St := KV.runOps (KV.oldOpen none) [KV.Op.set "a" "1"]

/-- C7 (witness): `c7_compact_log_no_file_ops` applied to `c7State`. -/
theorem c7_compact_log_no_file_ops_witness :
    KV.Inv c7State ∧
    ∃ t, KV.compactLog c7State = .ok t ∧ t.fileName = c7State.fileName ∧
      t.disk = c7State.disk ∧ t.logLen = t.log.length ∧
      t.log.length = c7State.store.length ∧ t.store = KV.buildIndex t.log :=
  ⟨by decide, c7_compact_log_no_file_ops c7State (by decide)⟩

/-- C7 (counterexample): after a successful `compact_log` the store still
owns the same single file `kv_store.json` — no file with an incremented
generation suffix exists and nothing was deleted (the on-disk content is
unchanged too). -/
theorem c7_file_unchanged_counterexample :
    (KV.compactLog c7State).toOption.map KV.St.fileName = some "kv_store.json" ∧
    c7State.fileName = "kv_store.json" ∧
    (KV.compactLog c7State).toOption.map KV.St.disk = some c7State.disk := by
  decide

/-- C9: `remove` on a key absent from the index fails with
`KeyNotFoundError` and returns the store completely unchanged — no log
entry is appended, the index and the on-disk file stay as they were, and
no compaction is attempted. -/
theorem c9_remove_missing_key (s : KV.St) (k : String)
    (h : hmGet s.store k = none) :
    KV.remove s k = (.error (.keyNotFound k), s) := by
  simp [KV.remove, h]

/-- C9 (witness): removing "zz" from a freshly opened empty store. -/
theorem c9_remove_missing_key_witness :
    hmGet (KV.oldOpen none).store "zz" = none ∧
    KV.remove (KV.oldOpen none) "zz"
      = (.error (.keyNotFound "zz"), KV.oldOpen none) :=
  ⟨by decide, c9_remove_missing_key (KV.oldOpen none) "zz" (by decide)⟩

/-- C10: in every state reachable through the public API, every index
binding points strictly inside the log, so `get` never takes the
`InternalKvError` branch: it always returns `Ok`. -/
theorem c10_index_in_bounds (s : KV.St) (h : KV.Reach s) :
    (∀ k i, hmGet s.store k = some i → i < s.log.length) ∧
    (∀ k, ∃ r, KV.get s k = .ok r) := by
  have hInv := KV.inv_of_reach s h
  constructor
  · intro k i hg
    obtain ⟨e, he, _, _⟩ := (KV.entryOkB_iff s.log (k, i)).mp
      (hInv.2 (k, i) (mem_of_hmGet _ _ _ hg))
    by_contra hge
    rw [List.getElem?_eq_none (by omega)] at he
    exact Option.noConfusion he
  · intro k
    exact ⟨_, KV.get_eq_interp s k hInv⟩

/-- C10 (witness): `c10_index_in_bounds` applied to the reachable state
after one `set` on a fresh store. -/
theorem c10_index_in_bounds_witness :
    (∀ k i, hmGet (KV.applyOp (KV.oldOpen none) (KV.Op.set "a" "1")).store k
        = some i →
      i < (KV.applyOp (KV.oldOpen none) (KV.Op.set "a" "1")).log.length) ∧
    (∀ k, ∃ r, KV.get (KV.applyOp (KV.oldOpen none) (KV.Op.set "a" "1")) k
        = .ok r) :=
  c10_index_in_bounds _
    (KV.Reach.step (KV.oldOpen none) (KV.Op.set "a" "1")
      (KV.Reach.opened none))

/-! ### The `InnerAppendLog` of `src/append_log.rs` -/

namespace AL

/-- The `LogCommand` enum of `src/append_log.rs`. -/
inductive Cmd where
  | set
  | remove
deriving DecidableEq

/-- The `LogEntry` struct of `src/append_log.rs`: byte-slice key and
optional byte-slice value. -/
structure Entry where
  cmd : Cmd
  key : List Nat
  val : Option (List Nat)
deriving DecidableEq

/-- Error outcomes of the fallible AppendLog operations: an IO error from
reading past the end of the file (`eof`, e.g. a truncated frame), a
`bincode` failure (`badEncoding`), or `InvalidLogFileError`. -/
inductive Err where
  | eof
  | badEncoding
  | invalidLogFile
deriving DecidableEq

/-- State of an `InnerAppendLog`: the offset index, the file bytes and
`entry_count`.  The two OS handles collapse into the byte list; the append
handle's position reads as the file length (O_APPEND lands writes at end
of file, and after `load` the handle sits at end of file). -/
structure St where
  index : List (List Nat × Nat)
  file : List Nat
  entryCount : Nat
deriving DecidableEq

/-- Little-endian 4-byte encoding of a `u32` value. -/
def u32le (n : Nat) : List Nat :=
  [n % 256, n / 256 % 256, n / 256 ^ 2 % 256, n / 256 ^ 3 % 256]

/-- Little-endian 8-byte encoding of a `u64` value. -/
def u64le (n : Nat) : List Nat :=
  [n % 256, n / 256 % 256, n / 256 ^ 2 % 256, n / 256 ^ 3 % 256,
   n / 256 ^ 4 % 256, n / 256 ^ 5 % 256, n / 256 ^ 6 % 256, n / 256 ^ 7 % 256]

/-- Big-endian 4-byte encoding of a `u32` value (the frame length prefix,
`write_u32::<BigEndian>`). -/
def u32be (n : Nat) : List Nat :=
  [n / 256 ^ 3 % 256, n / 256 ^ 2 % 256, n / 256 % 256, n % 256]

/-- Read 4 bytes as a big-endian `u32` (`read_u32::<BigEndian>`); `none`
is the end-of-file IO error. -/
def readU32BE? : List Nat → Option (Nat × List Nat)
  | b0 :: b1 :: b2 :: b3 :: rest =>
    some (b0 * 256 ^ 3 + b1 * 256 ^ 2 + b2 * 256 + b3, rest)
  | _ => none

/-- Read 4 bytes as a little-endian `u32` (bincode's enum tag). -/
def readU32LE? : List Nat → Option (Nat × List Nat)
  | b0 :: b1 :: b2 :: b3 :: rest =>
    some (b0 + b1 * 256 + b2 * 256 ^ 2 + b3 * 256 ^ 3, rest)
  | _ => none

/-- Read 8 bytes as a little-endian `u64` (bincode's sequence length). -/
def readU64LE? : List Nat → Option (Nat × List Nat)
  | b0 :: b1 :: b2 :: b3 :: b4 :: b5 :: b6 :: b7 :: rest =>
    some (b0 + b1 * 256 + b2 * 256 ^ 2 + b3 * 256 ^ 3 + b4 * 256 ^ 4
      + b5 * 256 ^ 5 + b6 * 256 ^ 6 + b7 * 256 ^ 7, rest)
  | _ => none

/-- Read exactly `n` bytes (`read_exact`); `none` is the end-of-file IO
error. -/
def takeExact? (n : Nat) (b : List Nat) : Option (List Nat × List Nat) :=
  if b.length < n then none else some (b.take n, b.drop n)

/-- Discriminant of the `LogCommand` enum under bincode. -/
def cmdTag : Cmd → Nat
  | .set => 0
  | .remove => 1

/-- bincode 1.x default serialization of a `LogEntry`: the enum variant
index as `u32` little-endian, the key as a `u64` little-endian length
followed by the key bytes, and the option as a one-byte tag (0 = None,
1 = Some) followed, when present, by the value in the same sequence
encoding. -/
def serializeEntry (e : Entry) : List Nat :=
  u32le (cmdTag e.cmd) ++ u64le e.key.length ++ e.key ++
    (match e.val with
     | none => [0]
     | some v => 1 :: (u64le v.length ++ v))

/-- bincode 1.x deserialization of a `LogEntry` from a frame body; bytes
after the entry are ignored, as bincode's slice reader leaves them
unread.  An unknown enum or option tag, or running out of bytes, fails. -/
def deserializeEntry (b : List Nat) : Option Entry :=
  match readU32LE? b with
  | none => none
  | some (tag, r1) =>
    match (match tag with
           | 0 => some Cmd.set
           | 1 => some Cmd.remove
           | _ => none) with
    | none => none
    | some cmd =>
      match readU64LE? r1 with
      | none => none
      | some (klen, r2) =>
        match takeExact? klen r2 with
        | none => none
        | some (key, r3) =>
          match r3 with
          | 0 :: _ => some ⟨cmd, key, none⟩
          | 1 :: r4 =>
            match readU64LE? r4 with
            | none => none
            | some (vlen, r5) =>
              match takeExact? vlen r5 with
              | none => none
              | some (v, _) => some ⟨cmd, key, some v⟩
          | _ => none

/-- Transcription of `InnerAppendLog::append`: observe the frame's offset
(the append position, i.e. the current end of file), write the 4-byte
big-endian body length (truncated by `as u32`) followed by the body, bump
`entry_count` by one, and update the index — `Set` binds the key to the
frame's offset, `Remove` erases it.  Serialization of these types and
buffered writes cannot fail, so the model is total. -/
def append (al : St) (cmd : Cmd) (key : List Nat) (val : Option (List Nat)) : St :=
  let enc := serializeEntry ⟨cmd, key, val⟩
  let off := al.file.length
  { file := al.file ++ u32be (enc.length % 2 ^ 32) ++ enc,
    entryCount := al.entryCount + 1,
    index :=
      match cmd with
      | .set => hmInsert al.index key off
      | .remove => hmRemove al.index key }

/-- Transcription of `InnerAppendLog::fetch_by_key`: an absent key is
`Ok(None)`; otherwise seek the read handle to the offset, read the 4-byte
length and the body, deserialize, and return the record's `val` — with no
comparison of the record's key against the requested key. -/
def fetchByKey (al : St) (key : List Nat) : Except Err (Option (List Nat)) :=
  match hmGet al.index key with
  | none => .ok none
  | some off =>
    match readU32BE? (al.file.drop off) with
    | none => .error .eof
    | some (len, rest) =>
      match takeExact? len rest with
      | none => .error .eof
      | some (body, _) =>
        match deserializeEntry body with
        | none => .error .badEncoding
        | some e => .ok e.val

/-- Parse the frame stored at byte offset `off` of a file: the 4-byte
big-endian length, then that many body bytes, deserialized. -/
def readFrame (file : List Nat) (off : Nat) : Option Entry :=
  match readU32BE? (file.drop off) with
  | none => none
  | some (len, rest) =>
    match takeExact? len rest with
    | none => none
    | some (body, _) => deserializeEntry body

/-- Index update for one scanned entry (tail of the `build_index` loop). -/
def updateIx (ix : List (List Nat × Nat)) (e : Entry) (off : Nat) :
    List (List Nat × Nat) :=
  match e.cmd with
  | .set => hmInsert ix e.key off
  | .remove => hmRemove ix e.key

/-- Loop of `InnerAppendLog::build_index`, structured on a fuel counter:
each iteration consumes at least 4 bytes of the remaining file, so
`file.length` steps always suffice and the fuel-exhaustion branch is
unreachable on the calls below. -/
def scanFrames : Nat → List Nat → Nat → List (List Nat × Nat) → Nat →
    Except Err (List (List Nat × Nat) × Nat)
  | _, [], _, ix, c => .ok (ix, c)
  | 0, _ :: _, _, _, _ => .error .eof
  | fuel + 1, rem, off, ix, c =>
    match readU32BE? rem with
    | none => .error .eof
    | some (len, rest) =>
      match takeExact? len rest with
      | none => .error .eof
      | some (body, rest2) =>
        match deserializeEntry body with
        | none => .error .badEncoding
        | some e => scanFrames fuel rest2 (off + 4 + len) (updateIx ix e off) (c + 1)

/-- Transcription of `InnerAppendLog::build_index`: scan the whole file
from offset 0, adding into the CURRENT `index` and `entry_count` of the
log — the two fields are not reset first. -/
def buildIndex (al : St) : Except Err St :=
  match scanFrames al.file.length al.file 0 al.index al.entryCount with
  | .error e => .error e
  | .ok (ix, c) => .ok { al with index := ix, entryCount := c }

/-- Transcription of `InnerAppendLog::load` on the byte content of an
existing regular file: fresh fields, then `build_index`. -/
def load (file : List Nat) : Except Err St :=
  buildIndex { index := [], file := file, entryCount := 0 }

/-- Iteration of `InnerAppendLog::compact` over the old log's index:
fetch each live value from the old log and append a `Set` into the
accumulator log; a `None` fetch is dropped silently. -/
def compactCollect : List (List Nat × Nat) → St → St → Except Err St
  | [], _, acc => .ok acc
  | (k, _) :: rest, old, acc =>
    match fetchByKey old k with
    | .error e => .error e
    | .ok none => compactCollect rest old acc
    | .ok (some bytes) => compactCollect rest old (append acc .set k (some bytes))

/-- Transcription of `InnerAppendLog::compact` (the target path must not
exist, so the new log starts empty): replay the live entries through
`append`, then call `build_index` on the new log — whose `entry_count`
and `index` already account for the appended entries. -/
def compact (al : St) : Except Err St :=
  match compactCollect al.index al { index := [], file := [], entryCount := 0 } with
  | .error e => .error e
  | .ok acc => buildIndex acc

end AL

/-! ### Claims about the `InnerAppendLog` layer -/

/-- An AppendLog holding exactly one live `Set` frame (key `[97]`, value
`[49]`), as produced by appending once into an empty log (the same state
`load` reconstructs from that file). -/
def c1Log : AL.St := AL.append ⟨[], [], 0⟩ .set [97] (some [49])

/-- C1 (code bug): on a log with one live entry, `compact` succeeds but
returns a log with `len() = 2` and `index_len() = 1`: `compact` appends
the live entries (already counting them) and then calls `build_index`
without resetting `entry_count`, double-counting every frame.  This
contradicts the code's own documentation of `len` ("the length of the
index and log should be equal only immediately after compaction") and
invariant P3's equality clause; the `index_len ≤ len` half still holds
here (1 ≤ 2). -/
theorem c1_compact_double_counts :
    c1Log.entryCount = 1 ∧ c1Log.index.length = 1 ∧
    (AL.compact c1Log).toOption.map AL.St.entryCount = some 2 ∧
    (AL.compact c1Log).toOption.map (fun a => a.index.length) = some 1 := by
  decide

/-- C4 (amended): when the key is bound in the index and the frame at the
bound offset deserializes to some record, `fetch_by_key` returns that
record's `val` — even when the record's key differs from the looked-up
key: the code performs no key comparison, so no corruption error is
raised for a mismatched frame.  (A frame that fails to read or
deserialize does produce an error.) -/
theorem c4_fetch_no_key_check (al : AL.St) (key : List Nat) (off : Nat)
    (e : AL.Entry) (h1 : hmGet al.index key = some off)
    (h2 : AL.readFrame al.file off = some e) (h3 : e.key ≠ key) :
    AL.fetchByKey al key = .ok e.val := by
  have h2' : (match AL.readU32BE? (al.file.drop off) with
      | none => none
      | some (len, rest) =>
        match AL.takeExact? len rest with
        | none => none
        | some (body, _) => AL.deserializeEntry body) = some e := h2
  unfold AL.fetchByKey
  rw [h1]
  show (match AL.readU32BE? (al.file.drop off) with
    | none => (Except.error AL.Err.eof : Except AL.Err (Option (List Nat)))
    | some (len, rest) =>
      match AL.takeExact? len rest with
      | none => Except.error AL.Err.eof
      | some (body, _) =>
        match AL.deserializeEntry body with
        | none => Except.error AL.Err.badEncoding
        | some e2 => Except.ok e2.val) = Except.ok e.val
  cases hr : AL.readU32BE? (al.file.drop off) with
  | none => rw [hr] at h2'; simp at h2'
  | some p =>
    obtain ⟨len, rest⟩ := p
    rw [hr] at h2'
    have h2a : (match AL.takeExact? len rest with
        | none => none
        | some (body, _) => AL.deserializeEntry body) = some e := h2'
    show (match AL.takeExact? len rest with
      | none => (Except.error AL.Err.eof : Except AL.Err (Option (List Nat)))
      | some (body, _) =>
        match AL.deserializeEntry body with
        | none => Except.error AL.Err.badEncoding
        | some e2 => Except.ok e2.val) = Except.ok e.val
    cases ht : AL.takeExact? len rest with
    | none => rw [ht] at h2a; simp at h2a
    | some q =>
      obtain ⟨body, rest2⟩ := q
      rw [ht] at h2a
      have h2b : AL.deserializeEntry body = some e := h2a
      show (match AL.deserializeEntry body with
        | none => (Except.error AL.Err.badEncoding : Except AL.Err (Option (List Nat)))
        | some e2 => Except.ok e2.val) = Except.ok e.val
      rw [h2b]

/-- The single frame of `c1Log`, reused to build a corrupt index. -/
def c4Frame : List Nat :=
  AL.u32be (AL.serializeEntry ⟨AL.Cmd.set, [97], some [49]⟩).length
    ++ AL.serializeEntry ⟨AL.Cmd.set, [97], some [49]⟩

/-- A log whose index binds key `[98]` to a frame whose record carries key
`[97]` — the I1-violating state the claim says `fetch_by_key` detects. -/
def c4Log : AL.St := ⟨[([98], 0)], c4Frame, 1⟩

/-- C4 (counterexample): the frame at the indexed offset deserializes to a
record whose key `[97]` differs from the looked-up key `[98]`, yet
`fetch_by_key` returns `Ok (Some [49])` instead of a corruption error. -/
theorem c4_fetch_counterexample :
    AL.readFrame c4Log.file 0 = some ⟨AL.Cmd.set, [97], some [49]⟩ ∧
    ([97] : List Nat) ≠ [98] ∧
    hmGet c4Log.index [98] = some 0 ∧
    AL.fetchByKey c4Log [98] = .ok (some [49]) := by decide

/-- C4 (witness): `c4_fetch_no_key_check` applied to `c4Log` at key
`[98]`. -/
theorem c4_fetch_no_key_check_witness :
    hmGet c4Log.index [98] = some 0 ∧
    AL.readFrame c4Log.file 0 = some ⟨AL.Cmd.set, [97], some [49]⟩ ∧
    (⟨AL.Cmd.set, [97], some [49]⟩ : AL.Entry).key ≠ [98] ∧
    AL.fetchByKey c4Log [98] = .ok (⟨AL.Cmd.set, [97], some [49]⟩ : AL.Entry).val :=
  ⟨by decide, by decide, by decide,
    c4_fetch_no_key_check c4Log [98] 0 ⟨AL.Cmd.set, [97], some [49]⟩
      (by decide) (by decide) (by decide)⟩

/-- C8: a successful `append` writes exactly one frame at the current end
of file — the 4-byte big-endian body length `L` followed by exactly `L`
bytes of serialized record (the length prefix reads back as the body
length, given the body fits a `u32`) — increments `entry_count` by
exactly one, and updates the index: `Set` binds the key to the frame's
starting offset, `Remove` erases it, and every other key is untouched. -/
theorem c8_append_frame (al : AL.St) (cmd : AL.Cmd) (key : List Nat)
    (val : Option (List Nat))
    (h : (AL.serializeEntry ⟨cmd, key, val⟩).length < 2 ^ 32) :
    (AL.append al cmd key val).file
      = al.file ++ AL.u32be (AL.serializeEntry ⟨cmd, key, val⟩).length
          ++ AL.serializeEntry ⟨cmd, key, val⟩ ∧
    (AL.u32be (AL.serializeEntry ⟨cmd, key, val⟩).length).length = 4 ∧
    AL.readU32BE? (AL.u32be (AL.serializeEntry ⟨cmd, key, val⟩).length
        ++ AL.serializeEntry ⟨cmd, key, val⟩)
      = some ((AL.serializeEntry ⟨cmd, key, val⟩).length,
              AL.serializeEntry ⟨cmd, key, val⟩) ∧
    (AL.append al cmd key val).entryCount = al.entryCount + 1 ∧
    (cmd = .set →
      hmGet (AL.append al cmd key val).index key = some al.file.length) ∧
    (cmd = .remove → hmGet (AL.append al cmd key val).index key = none) ∧
    (∀ k2, k2 ≠ key →
      hmGet (AL.append al cmd key val).index k2 = hmGet al.index k2) := by
  refine ⟨?_, rfl, ?_, rfl, ?_, ?_, ?_⟩
  · show al.file
      ++ AL.u32be ((AL.serializeEntry ⟨cmd, key, val⟩).length % 2 ^ 32)
      ++ AL.serializeEntry ⟨cmd, key, val⟩ = _
    rw [Nat.mod_eq_of_lt h]
  · unfold AL.u32be AL.readU32BE?
    simp only [List.cons_append, List.nil_append]
    have hv : (AL.serializeEntry ⟨cmd, key, val⟩).length / 256 ^ 3 % 256 * 256 ^ 3
        + (AL.serializeEntry ⟨cmd, key, val⟩).length / 256 ^ 2 % 256 * 256 ^ 2
        + (AL.serializeEntry ⟨cmd, key, val⟩).length / 256 % 256 * 256
        + (AL.serializeEntry ⟨cmd, key, val⟩).length % 256
        = (AL.serializeEntry ⟨cmd, key, val⟩).length := by omega
    rw [hv]
  · intro hc
    subst hc
    show hmGet (hmInsert al.index key al.file.length) key = some al.file.length
    rw [hmGet_hmInsert, if_pos rfl]
  · intro hc
    subst hc
    show hmGet (hmRemove al.index key) key = none
    rw [hmGet_hmRemove, if_pos rfl]
  · intro k2 hk2
    have hne : ¬ (key = k2) := fun hx => hk2 hx.symm
    cases cmd
    · show hmGet (hmInsert al.index key al.file.length) k2 = hmGet al.index k2
      rw [hmGet_hmInsert, if_neg hne]
    · show hmGet (hmRemove al.index key) k2 = hmGet al.index k2
      rw [hmGet_hmRemove, if_neg hne]

/-- C8 (witness): `c8_append_frame` applied to one `Set` append on an
empty log. -/
theorem c8_append_frame_witness :
    (AL.serializeEntry ⟨AL.Cmd.set, [97], some [49]⟩).length < 2 ^ 32 ∧
    ((AL.append (⟨[], [], 0⟩ : AL.St) AL.Cmd.set [97] (some [49])).file
      = (⟨[], [], 0⟩ : AL.St).file
          ++ AL.u32be (AL.serializeEntry ⟨AL.Cmd.set, [97], some [49]⟩).length
          ++ AL.serializeEntry ⟨AL.Cmd.set, [97], some [49]⟩ ∧
    (AL.u32be (AL.serializeEntry ⟨AL.Cmd.set, [97], some [49]⟩).length).length = 4 ∧
    AL.readU32BE? (AL.u32be (AL.serializeEntry ⟨AL.Cmd.set, [97], some [49]⟩).length
        ++ AL.serializeEntry ⟨AL.Cmd.set, [97], some [49]⟩)
      = some ((AL.serializeEntry ⟨AL.Cmd.set, [97], some [49]⟩).length,
              AL.serializeEntry ⟨AL.Cmd.set, [97], some [49]⟩) ∧
    (AL.append (⟨[], [], 0⟩ : AL.St) AL.Cmd.set [97] (some [49])).entryCount
      = (⟨[], [], 0⟩ : AL.St).entryCount + 1 ∧
    (AL.Cmd.set = .set →
      hmGet (AL.append (⟨[], [], 0⟩ : AL.St) AL.Cmd.set [97] (some [49])).index [97]
        = some (⟨[], [], 0⟩ : AL.St).file.length) ∧
    (AL.Cmd.set = .remove →
      hmGet (AL.append (⟨[], [], 0⟩ : AL.St) AL.Cmd.set [97] (some [49])).index [97]
        = none) ∧
    (∀ k2, k2 ≠ [97] →
      hmGet (AL.append (⟨[], [], 0⟩ : AL.St) AL.Cmd.set [97] (some [49])).index k2
        = hmGet (⟨[], [], 0⟩ : AL.St).index k2)) :=
  ⟨by decide,
    c8_append_frame (⟨[], [], 0⟩ : AL.St) AL.Cmd.set [97] (some [49]) (by decide)⟩
